import Mathlib

/-!
A verification development for `scripts/harvest.py` of the `it-terms`
repository: a shallow embedding in Lean 4 of the harvester's data model and
operations, followed by theorems about the embedded definitions.

Modelling conventions:
* Python strings are Lean `String`s (lists of unicode scalar values).
* The network is an explicit environment (`Env`): the category-listing
  endpoint is a finite sequence of page results per category (the
  continuation token of the API corresponds to the position in that
  sequence), and the summary endpoint is a function from title to a
  transport result.  A transport failure that exhausts the retry policy
  (`requests` raising after `Retry` gives up) is modelled as an `Except`
  error value that propagates.
* The persisted file `words.json` is modelled as `Option (List Entry)`
  (`none` = file absent); serialization to the JSON tree produced by
  `json.dump` is modelled separately (`save_words` / `load_saved_words`).
* `time.sleep`, logging via `print`, and wall-clock time are irrelevant to
  the claims; `date.today()` is an explicit `today` field of the
  environment.
-/

/-! ## `slugify` (harvest.py line 47-48)

`re.sub(r"[^a-z0-9一-龠ぁ-んァ-ン]+", "-", s.lower())`: lower-case the
string, then replace every maximal run of characters outside the whitelist
by a single `'-'`.  The whitelist is lowercase ASCII letters, ASCII digits,
and three Japanese script ranges (kanji U+4E00-U+9FA0, hiragana
U+3041-U+3093, katakana U+30A1-U+30F3). -/

/-- Characters matched by the character class `[a-z0-9一-龠ぁ-んァ-ン]`. -/
def isSlugChar (c : Char) : Bool :=
  decide ((0x61 ≤ c.toNat ∧ c.toNat ≤ 0x7a) ∨
          (0x30 ≤ c.toNat ∧ c.toNat ≤ 0x39) ∨
          (0x4e00 ≤ c.toNat ∧ c.toNat ≤ 0x9fa0) ∨
          (0x3041 ≤ c.toNat ∧ c.toNat ≤ 0x3093) ∨
          (0x30a1 ≤ c.toNat ∧ c.toNat ≤ 0x30f3))

/-- Character-wise model of Python `str.lower` on the ASCII range.
(The general-Unicode special casings of `str.lower` concern characters that
play no role in the properties proved here: every character of the slug
whitelist and the separator is a fixed point of both mappings.) -/
def pyLower (c : Char) : Char :=
  if 0x41 ≤ c.toNat ∧ c.toNat ≤ 0x5a then Char.ofNat (c.toNat + 0x20) else c

/-- The substitution `re.sub(r"[^...]+", "-", ·)` as a left-to-right scan:
the boolean records whether the scan is currently inside a run of
non-whitelisted characters whose single `'-'` has already been emitted. -/
def collapseRuns : Bool → List Char → List Char
  | _, [] => []
  | inRun, c :: cs =>
    if isSlugChar c then c :: collapseRuns false cs
    else if inRun then collapseRuns true cs
    else '-' :: collapseRuns true cs

/-- `slugify` of harvest.py line 47-48. -/
def slugify (s : String) : String :=
  String.mk (collapseRuns false (s.data.map pyLower))

theorem mem_collapseRuns {c : Char} :
    ∀ (l : List Char) (b : Bool), c ∈ collapseRuns b l →
      isSlugChar c = true ∨ c = '-'
  | [], b => by simp [collapseRuns]
  | a :: l, b => by
    simp only [collapseRuns]
    split
    · rename_i ha
      intro hm
      rcases List.mem_cons.mp hm with h | h
      · exact Or.inl (h ▸ ha)
      · exact mem_collapseRuns l false h
    · split
      · exact fun hm => mem_collapseRuns l true hm
      · intro hm
        rcases List.mem_cons.mp hm with h | h
        · exact Or.inr h
        · exact mem_collapseRuns l true h

theorem head_collapseRuns_true :
    ∀ l : List Char, (collapseRuns true l).head? ≠ some '-'
  | [] => by simp [collapseRuns]
  | a :: l => by
    simp only [collapseRuns]
    split
    · rename_i ha
      intro h
      have : a = '-' := by simpa using h
      rw [this] at ha
      exact absurd ha (by decide)
    · exact head_collapseRuns_true l

theorem chain'_collapseRuns :
    ∀ (l : List Char) (b : Bool),
      List.Chain' (fun a b => ¬(a = '-' ∧ b = '-')) (collapseRuns b l)
  | [], b => by simp [collapseRuns]
  | a :: l, b => by
    simp only [collapseRuns]
    split
    · rename_i ha
      refine List.chain'_cons'.mpr ⟨?_, chain'_collapseRuns l false⟩
      intro y _
      intro hc
      have : isSlugChar '-' = true := hc.1 ▸ ha
      exact absurd this (by decide)
    · split
      · exact chain'_collapseRuns l true
      · refine List.chain'_cons'.mpr ⟨?_, chain'_collapseRuns l true⟩
        intro y hy
        intro hc
        exact head_collapseRuns_true l (by rw [hy, hc.2])

theorem collapseRuns_fixed :
    ∀ (l : List Char) (b : Bool),
      (∀ c ∈ l, isSlugChar c = true ∨ c = '-') →
      List.Chain' (fun a b => ¬(a = '-' ∧ b = '-')) l →
      (b = true → l.head? ≠ some '-') →
      collapseRuns b l = l
  | [], b, _, _, _ => by simp [collapseRuns]
  | a :: l, b, halpha, hchain, hhead => by
    simp only [collapseRuns]
    rcases halpha a (List.mem_cons_self a l) with ha | ha
    · rw [if_pos ha]
      have ih := collapseRuns_fixed l false
        (fun c hc => halpha c (List.mem_cons_of_mem a hc)) hchain.tail
        (by intro h; exact absurd h (by simp))
      rw [ih]
    · subst ha
      have hns : isSlugChar '-' = false := by decide
      rw [if_neg (by simp [hns])]
      cases b with
      | true => exact absurd (rfl : ('-' :: l).head? = some '-') (hhead rfl)
      | false =>
        simp only [if_neg Bool.false_ne_true]
        have hh : l.head? ≠ some '-' := by
          intro hl
          rcases l with _ | ⟨c, l⟩
          · simp at hl
          · have : c = '-' := by simpa using hl
            subst this
            exact (List.chain'_cons.mp hchain).1 ⟨rfl, rfl⟩
        have ih := collapseRuns_fixed l true
          (fun c hc => halpha c (List.mem_cons_of_mem _ hc)) hchain.tail
          (fun _ => hh)
        rw [ih]

theorem pyLower_fixed {c : Char} (h : isSlugChar c = true ∨ c = '-') :
    pyLower c = c := by
  rcases h with h | h
  · have h' := of_decide_eq_true h
    unfold pyLower
    rw [if_neg]
    intro hc
    omega
  · subst h
    decide

theorem map_pyLower_fixed :
    ∀ l : List Char, (∀ c ∈ l, isSlugChar c = true ∨ c = '-') →
      l.map pyLower = l
  | [], _ => rfl
  | a :: l, h => by
    simp only [List.map_cons]
    rw [pyLower_fixed (h a (List.mem_cons_self a l)),
        map_pyLower_fixed l (fun c hc => h c (List.mem_cons_of_mem a hc))]

/-- C10: `slugify` is idempotent and produces a normal form: its output
contains only lowercase ASCII letters, digits, characters of the three
Japanese script ranges of the whitelist, and the separator `'-'`, and no
two consecutive separators occur (each run of non-whitelisted characters
collapses to a single separator). -/
theorem slugify_idempotent_normal_form (s : String) :
    slugify (slugify s) = slugify s ∧
    (∀ c ∈ (slugify s).data, isSlugChar c = true ∨ c = '-') ∧
    List.Chain' (fun a b => ¬(a = '-' ∧ b = '-')) (slugify s).data := by
  have halpha : ∀ c ∈ (slugify s).data, isSlugChar c = true ∨ c = '-' :=
    fun c hc => mem_collapseRuns _ false hc
  have hchain : List.Chain' (fun a b => ¬(a = '-' ∧ b = '-')) (slugify s).data :=
    chain'_collapseRuns _ false
  refine ⟨?_, halpha, hchain⟩
  show String.mk (collapseRuns false ((slugify s).data.map pyLower)) = slugify s
  rw [map_pyLower_fixed _ halpha,
      collapseRuns_fixed _ false halpha hchain (by intro h; exact absurd h (by simp))]

/-! ## Data model: the glossary entry built by `fetch_summary` (lines 96-110)

The dict literal of lines 96-110 is embedded as a structure.  The `id` key
is absent from the dict returned by `fetch_summary` and is assigned by
`main` (line 142) before the entry is appended; the structure carries an
`id` field that holds the placeholder `0` until `main` overwrites it. -/

structure Srs where
  next_review : String
  interval_days : Int
  stability : Int
deriving DecidableEq

structure Link where
  title : String
  url : String
deriving DecidableEq

structure Entry where
  term : String
  definition_ja : String
  definition_en : String
  tags : List String
  difficulty : Int
  related_terms : List String
  examples : List String
  official_links : List Link
  source_urls : List String
  license : String
  attribution : String
  lang : String
  srs : Srs
  id : Nat
deriving DecidableEq

/-- The parsed body (plus HTTP status) of a summary-endpoint response, with
exactly the fields harvest.py reads: `type`, `title`, `extract`, and
`content_urls.desktop.page` (flattened to `pageUrl`, `""` when the JSON
path is absent, as in line 85's default). -/
structure SummaryResp where
  status : Nat
  type : Option String
  title : Option String
  extract : Option String
  pageUrl : String
deriving DecidableEq

/-- Python's substring test `needle in hay`, char-list version:
`startsWithChars n l` is `n <+: l` as a boolean. -/
def startsWithChars : List Char → List Char → Bool
  | [], _ => true
  | _ :: _, [] => false
  | a :: as, b :: bs => a == b && startsWithChars as bs

def containsSub (needle : List Char) : List Char → Bool
  | [] => startsWithChars needle []
  | c :: cs => startsWithChars needle (c :: cs) || containsSub needle cs

/-- Python `needle in hay` for strings. -/
def strContains (hay needle : String) : Bool :=
  containsSub needle.data hay.data

/-- The whitespace characters stripped by Python `str.strip()` (ASCII
part; the Unicode space characters additionally stripped by Python play no
role in the claims). -/
def isPySpace (c : Char) : Bool :=
  c = ' ' || c = '\t' || c = '\n' || c = '\r' ||
  c = Char.ofNat 0x0b || c = Char.ofNat 0x0c

/-- Python `str.strip()`: drop leading and trailing whitespace. -/
def pyStrip (s : String) : String :=
  String.mk (((s.data.dropWhile isPySpace).reverse.dropWhile isPySpace).reverse)

/-- `bad_words` of line 91: the fixed denylist of off-domain keywords. -/
def bad_words : List String :=
  ["交響曲", "楽器", "作曲", "小説", "漫画", "映画", "貨物", "海運", "船舶"]

/-- Lines 77-110 of `fetch_summary`: given the (transport-successful)
response `r` for `title`, either reject (`none`) — non-200 status,
disambiguation page, missing/blank extract, or denylisted keyword — or
build the glossary dict.  `today` models `str(date.today())` (line 109). -/
def summary_to_entry (title lang today : String) (r : SummaryResp) : Option Entry :=
  if r.status ≠ 200 then none
  else if r.type = some "disambiguation" then none
  else if pyStrip (r.extract.getD "") = "" then none
  else if bad_words.any (fun w => strContains (pyStrip (r.extract.getD "")) w) then none
  else some {
    term := match r.title with
      | some ti => if ti = "" then title else ti
      | none => title
    definition_ja := if lang = "ja" then pyStrip (r.extract.getD "") else ""
    definition_en := if lang = "en" then pyStrip (r.extract.getD "") else ""
    tags := ["未分類"]
    difficulty := 1
    related_terms := []
    examples := []
    official_links :=
      if r.pageUrl = "" then [] else [⟨title ++ " - Wikipedia", r.pageUrl⟩]
    source_urls := if r.pageUrl = "" then [] else [r.pageUrl]
    license := "CC BY-SA"
    attribution := "Wikipedia"
    lang := lang
    srs := ⟨today, 0, 0⟩
    id := 0 }

/-- The harvester's environment: the category-listing endpoint (per
category, the finite sequence of pages the continuation token walks
through; each page either a transport failure or a list of
(title, namespace) members) and the summary endpoint (per title, a
transport failure or a response).  `today` is `date.today()`. -/
structure Env where
  listing : String → List (Except Unit (List (String × Option Int)))
  summary : String → Except Unit SummaryResp
  today : String

/-- The environment-variable configuration surface (lines 14-20):
`CATEGORIES` (raw string), `LIMIT`, `LANG`. -/
structure Config where
  categoriesRaw : String
  limit : Nat
  lang : String

/-- `fetch_summary` (lines 73-110): the `SESSION.get` of line 76 either
raises after exhausting retries (transport failure, propagated) or yields
a response that lines 77-110 turn into `none` or an entry. -/
def fetch_summary (env : Env) (title lang : String) : Except Unit (Option Entry) :=
  match env.summary title with
  | .error e => .error e
  | .ok r => .ok (summary_to_entry title lang env.today r)

/-- C4: the summary fetch yields no entry (a silent skip, `Option.none`,
not an error) if and only if a rejection condition holds: non-200 HTTP
status, summary flagged as a disambiguation page, extract absent or empty
after trimming, or extract containing a keyword of the fixed denylist. -/
theorem fetch_summary_rejection_iff (env : Env) (t lang : String) (r : SummaryResp)
    (h : env.summary t = .ok r) :
    fetch_summary env t lang = .ok none ↔
      (r.status ≠ 200 ∨ r.type = some "disambiguation" ∨
       pyStrip (r.extract.getD "") = "" ∨
       ∃ w ∈ bad_words, strContains (pyStrip (r.extract.getD "")) w = true) := by
  unfold fetch_summary
  rw [h]
  simp only [Except.ok.injEq]
  unfold summary_to_entry
  split_ifs with h1 h2 h3 h4 <;>
    simp_all [List.any_eq_true]

def envC4 : Env where
  listing := fun _ => []
  summary := fun _ => .ok ⟨404, none, none, some "x", ""⟩
  today := "2026-10-12"

theorem fetch_summary_rejection_iff_witness :
    fetch_summary envC4 "t" "ja" = .ok none :=
  (fetch_summary_rejection_iff envC4 "t" "ja" ⟨404, none, none, some "x", ""⟩ rfl).mpr
    (Or.inl (by decide))

/-- C8: for every accepted summary, `term` is the display title of the
fetched summary, falling back to the requested title when the summary
provides none (absent, or the falsy empty string); of the two
language-tagged definition fields only the one matching the configured
fetch language holds the (trimmed) extract, the other is left empty. -/
theorem accepted_entry_term_and_definition (t lang today : String) (r : SummaryResp)
    (e : Entry) (h : summary_to_entry t lang today r = some e) :
    ((r.title = none ∨ r.title = some "") → e.term = t) ∧
    (∀ ti, r.title = some ti → ti ≠ "" → e.term = ti) ∧
    (lang = "ja" → e.definition_ja = pyStrip (r.extract.getD "") ∧ e.definition_en = "") ∧
    (lang = "en" → e.definition_en = pyStrip (r.extract.getD "") ∧ e.definition_ja = "") := by
  unfold summary_to_entry at h
  by_cases h1 : r.status ≠ 200
  · rw [if_pos h1] at h; cases h
  rw [if_neg h1] at h
  by_cases h2 : r.type = some "disambiguation"
  · rw [if_pos h2] at h; cases h
  rw [if_neg h2] at h
  by_cases h3 : pyStrip (r.extract.getD "") = ""
  · rw [if_pos h3] at h; cases h
  rw [if_neg h3] at h
  by_cases h4 : (bad_words.any fun w => strContains (pyStrip (r.extract.getD "")) w) = true
  · rw [if_pos h4] at h; cases h
  rw [if_neg h4] at h
  injection h with h
  subst h
  refine ⟨?_, ?_, ?_, ?_⟩
  · rintro (ht | ht) <;> simp [ht]
  · intro ti ht hne
    simp [ht, hne]
  · intro hl
    have hne : lang ≠ "en" := by rw [hl]; decide
    simp [hl, hne]
  · intro hl
    have hne : lang ≠ "ja" := by rw [hl]; decide
    simp [hl, hne]

def rW8 : SummaryResp := ⟨200, none, some "加算器", some "回路", "u"⟩

def eW8 : Entry :=
  ⟨"加算器", "回路", "", ["未分類"], 1, [], [], [⟨"Adder - Wikipedia", "u"⟩],
   ["u"], "CC BY-SA", "Wikipedia", "ja", ⟨"d", 0, 0⟩, 0⟩

theorem accepted_entry_term_and_definition_witness :
    eW8.term = "加算器" ∧ eW8.definition_ja = "回路" ∧ eW8.definition_en = "" := by
  have h := accepted_entry_term_and_definition "Adder" "ja" "d" rW8 eW8 (by decide)
  refine ⟨h.2.1 "加算器" rfl (by decide), ?_, (h.2.2.1 rfl).2⟩
  rw [(h.2.2.1 rfl).1]
  decide

/-! ## The harvester `main` (lines 112-152) -/

/-- Python `raw.split(",")`: split on each comma (yields `[""]` on the
empty string, like Python). -/
def splitCommaAux : List Char → List Char → List (List Char)
  | acc, [] => [acc.reverse]
  | acc, c :: cs =>
    if c = ',' then acc.reverse :: splitCommaAux [] cs
    else splitCommaAux (c :: acc) cs

/-- Line 114: `[c.strip() for c in os.getenv("CATEGORIES", "").split(",") if c.strip()]`. -/
def parse_categories (raw : String) : List String :=
  (((splitCommaAux [] raw.data).map (fun l => pyStrip (String.mk l)))).filter
    (fun c => c ≠ "")

/-- `load_words` (lines 37-41): parse the file when it exists, else the
empty collection. -/
def load_words (disk : Option (List Entry)) : List Entry := disk.getD []

/-- Line 68: keep main-namespace members (`m.get("ns") == 0`) and take
their titles. -/
def page_titles (members : List (String × Option Int)) : List String :=
  (members.filter (fun m => m.2 = some 0)).map Prod.fst

namespace harvest

/-- The in-memory state of `main`'s loops: the collection `words` (line
119), the dedup set `have` (lines 120 and 144; only membership is queried,
so a list of keys suffices), `next_id` (line 121) and the `added` counter
(line 122). -/
structure St where
  words : List Entry
  haveSlugs : List String
  next_id : Nat
  added : Nat
deriving DecidableEq

/-- Control flow of the nested loops of lines 124-149: `go st` = fall
through to the next iteration of the enclosing loop; `stop st` = the
limit-triggered `save_words(words); return` of lines 130-132 (aborts every
enclosing loop); `fatal st` = an uncaught transport exception unwinding out
of `main` (the state is carried only so the theorems can speak about it —
it is in-memory only and lost). -/
inductive Flow where
  | go (st : St)
  | stop (st : St)
  | fatal (st : St)
deriving DecidableEq

def Flow.state : Flow → St
  | .go st => st
  | .stop st => st
  | .fatal st => st

/-- Lines 128-146, the `for t in titles` loop body: limit check first
(lines 129-132), then dedup on the slug of the requested title (lines
134-136), then the summary fetch (lines 138-140; `None` is a silent skip,
a transport exception aborts), then entry construction (lines 142-146):
assign the id, append, record the requested title's slug, bump counters. -/
def runTitles (cfg : Config) (env : Env) : List String → St → Flow
  | [], st => .go st
  | t :: ts, st =>
    if st.added ≥ cfg.limit then .stop st
    else if slugify t ∈ st.haveSlugs then runTitles cfg env ts st
    else match fetch_summary env t cfg.lang with
      | .error _ => .fatal st
      | .ok none => runTitles cfg env ts st
      | .ok (some e) =>
        runTitles cfg env ts
          { words := st.words ++ [{ e with id := st.next_id }]
            haveSlugs := st.haveSlugs ++ [slugify t]
            next_id := st.next_id + 1
            added := st.added + 1 }

/-- Lines 126-149, the `while True` pagination loop: each element of the
page list is one `fetch_category_members` result (line 127; a transport
exception aborts), whose main-namespace titles are processed; the loop
ends when the continuation token is exhausted (line 148-149), i.e. at the
end of the page list. -/
def runPages (cfg : Config) (env : Env) :
    List (Except Unit (List (String × Option Int))) → St → Flow
  | [], st => .go st
  | p :: ps, st =>
    match p with
    | .error _ => .fatal st
    | .ok members =>
      match runTitles cfg env (page_titles members) st with
      | .go st' => runPages cfg env ps st'
      | out => out

/-- Line 124, the `for cat in categories` loop. -/
def runCats (cfg : Config) (env : Env) : List String → St → Flow
  | [], st => .go st
  | c :: cs, st =>
    match runPages cfg env (env.listing c) st with
    | .go st' => runCats cfg env cs st'
    | out => out

inductive MainResult where
  | noCategories
  | limitReached (added : Nat)
  | done (added : Nat)
  | fatalErr
deriving DecidableEq

/-- Process exit status: `sys.exit(0)` at line 117 and the normal returns
(lines 132 and 151-152) give 0; an uncaught transport exception terminates
the process with a non-zero status. -/
def exit_code : MainResult → Nat
  | .fatalErr => 1
  | _ => 0

/-- Lines 119-122: load the collection, build the dedup set from the slugs
of the *stored terms*, compute `next_id` from the maximum stored id
(`foldl max 0` agrees with Python's `max` of a non-empty list here since
every id is a non-negative integer), reset the per-run counter. -/
def initSt (disk : Option (List Entry)) : St where
  words := load_words disk
  haveSlugs := (load_words disk).map (fun w => slugify w.term)
  next_id :=
    if load_words disk = [] then 1
    else ((load_words disk).map Entry.id).foldl max 0 + 1
  added := 0

/-- `main` (lines 112-152) over the environment and a starting disk state;
returns the final disk state and the outcome.  Writes to the disk happen
exactly at the return points of `main` (the limit-triggered save of line
130 and the final save of line 151); an uncaught exception leaves the disk
as it was. -/
def main (cfg : Config) (env : Env) (disk : Option (List Entry)) :
    Option (List Entry) × MainResult :=
  if parse_categories cfg.categoriesRaw = [] then (disk, .noCategories)
  else
    match runCats cfg env (parse_categories cfg.categoriesRaw) (initSt disk) with
    | .stop st => (some st.words, .limitReached st.added)
    | .go st => (some st.words, .done st.added)
    | .fatal _ => (disk, .fatalErr)


/-! ### Append-only structure of a run -/

/-- `out` extends `st` by appending a block of new entries whose ids are
consecutive starting at `st.next_id`. -/
def StExtends (st out : St) : Prop :=
  ∃ new, out.words = st.words ++ new ∧ out.added = st.added + new.length ∧
    out.next_id = st.next_id + new.length ∧
    new.map Entry.id = List.range' st.next_id new.length

theorem StExtends.refl (st : St) : StExtends st st :=
  ⟨[], by simp⟩

theorem StExtends.trans {a b c : St} (h1 : StExtends a b) (h2 : StExtends b c) :
    StExtends a c := by
  obtain ⟨n1, hw1, ha1, hn1, hi1⟩ := h1
  obtain ⟨n2, hw2, ha2, hn2, hi2⟩ := h2
  refine ⟨n1 ++ n2, ?_, ?_, ?_, ?_⟩
  · rw [hw2, hw1, List.append_assoc]
  · rw [ha2, ha1, List.length_append]; omega
  · rw [hn2, hn1, List.length_append]; omega
  · rw [List.map_append, hi1, hi2, hn1, List.length_append,
        List.range'_append_1, Nat.add_comm]

theorem stExtends_push (st : St) (e : Entry) (sg : String) :
    StExtends st
      { words := st.words ++ [{ e with id := st.next_id }]
        haveSlugs := st.haveSlugs ++ [sg]
        next_id := st.next_id + 1
        added := st.added + 1 } :=
  ⟨[{ e with id := st.next_id }], rfl, by simp, by simp, by simp⟩

theorem runTitles_extends (cfg : Config) (env : Env) :
    ∀ (ts : List String) (st : St), StExtends st (runTitles cfg env ts st).state
  | [], st => .refl st
  | t :: ts, st => by
    rw [runTitles]
    split
    · exact .refl st
    · split
      · exact runTitles_extends cfg env ts st
      · split
        · exact .refl st
        · exact runTitles_extends cfg env ts st
        · exact (stExtends_push st _ _).trans (runTitles_extends cfg env ts _)

theorem runPages_extends (cfg : Config) (env : Env) :
    ∀ (ps : List (Except Unit (List (String × Option Int)))) (st : St),
      StExtends st (runPages cfg env ps st).state
  | [], st => .refl st
  | p :: ps, st => by
    cases p with
    | error e => exact .refl st
    | ok members =>
      have h1 := runTitles_extends cfg env (page_titles members) st
      rcases hrt : runTitles cfg env (page_titles members) st with st' | st' | st' <;>
          rw [hrt] at h1 <;> simp only [runPages, hrt]
      · exact h1.trans (runPages_extends cfg env ps st')
      · exact h1
      · exact h1

theorem runCats_extends (cfg : Config) (env : Env) :
    ∀ (cs : List String) (st : St), StExtends st (runCats cfg env cs st).state
  | [], st => .refl st
  | c :: cs, st => by
    have h1 := runPages_extends cfg env (env.listing c) st
    rcases hrp : runPages cfg env (env.listing c) st with st' | st' | st' <;>
        rw [hrp] at h1 <;> simp only [runCats, hrp]
    · exact h1.trans (runCats_extends cfg env cs st')
    · exact h1
    · exact h1

/-- C6: every run is append-only with respect to the loaded entries: either
the run never writes (no categories configured, or fatal abort) and the
disk is untouched, or the written collection is exactly the loaded one
followed by the newly accepted entries in encounter order; no loaded entry
is mutated, reordered or deleted. -/
theorem run_append_only (cfg : Config) (env : Env) (disk : Option (List Entry)) :
    (main cfg env disk).1 = disk ∨
    ∃ new, (main cfg env disk).1 = some (load_words disk ++ new) := by
  unfold main
  by_cases hc : parse_categories cfg.categoriesRaw = []
  · rw [if_pos hc]
    exact Or.inl rfl
  · rw [if_neg hc]
    have hext := runCats_extends cfg env (parse_categories cfg.categoriesRaw) (initSt disk)
    rcases hr : runCats cfg env (parse_categories cfg.categoriesRaw) (initSt disk)
        with st | st | st <;> rw [hr] at hext
    · obtain ⟨new, hw, -, -, -⟩ := hext
      exact Or.inr ⟨new, congrArg some hw⟩
    · obtain ⟨new, hw, -, -, -⟩ := hext
      exact Or.inr ⟨new, congrArg some hw⟩
    · exact Or.inl rfl

/-- C5: if a transport call fails fatally (retries exhausted, the
exception propagates out of `main`), the run aborts without writing the
persisted file: the on-disk collection is exactly what it was at the start
of the run.  (A save point inside a run can only be the limit-triggered
save of lines 130-132, which immediately returns, so no fatal failure can
follow it within the run: the last save point at the moment of a fatal
abort is always the start-of-run contents.)  All in-memory progress is
lost. -/
theorem fatal_abort_preserves_disk (cfg : Config) (env : Env)
    (disk : Option (List Entry)) (h : (main cfg env disk).2 = .fatalErr) :
    (main cfg env disk).1 = disk := by
  unfold main at h ⊢
  by_cases hc : parse_categories cfg.categoriesRaw = []
  · rw [if_pos hc]
  · rw [if_neg hc] at h ⊢
    rcases hr : runCats cfg env (parse_categories cfg.categoriesRaw) (initSt disk)
        with st | st | st <;> simp_all

/-- C9: with no categories supplied (the parsed `CATEGORIES` list is
empty: the variable is empty or holds only blank items), `main` prints an
informational message and exits cleanly with status 0, reading and writing
nothing: the disk state is returned untouched and no entry is processed. -/
theorem no_categories_clean_exit (cfg : Config) (env : Env)
    (disk : Option (List Entry)) (h : parse_categories cfg.categoriesRaw = []) :
    main cfg env disk = (disk, .noCategories) ∧
    exit_code (main cfg env disk).2 = 0 := by
  unfold main
  rw [if_pos h]
  exact ⟨rfl, rfl⟩


/-! ### Monotonic consecutive ids (lines 119-121, 142, 145) -/

theorem foldl_max_range' : ∀ n : Nat, (List.range' 1 n).foldl max 0 = n := by
  intro n
  induction n with
  | zero => rfl
  | succ n ih =>
    rw [List.range'_1_concat, List.foldl_append, ih]
    simp only [List.foldl_cons, List.foldl_nil]
    omega

/-- Ids invariant: the collection carries ids `1..N` in positional order
and `next_id` is `N + 1`. -/
def IdsSt (st : St) : Prop :=
  st.words.map Entry.id = List.range' 1 st.words.length ∧
  st.next_id = st.words.length + 1

theorem StExtends.ids {st out : St} (h : StExtends st out) (hst : IdsSt st) :
    IdsSt out := by
  obtain ⟨new, hw, -, hn, hi⟩ := h
  obtain ⟨h1, h2⟩ := hst
  constructor
  · rw [hw, List.map_append, h1, hi, h2, List.length_append,
        show st.words.length + 1 = 1 + st.words.length by omega,
        List.range'_append_1, Nat.add_comm]
  · rw [hn, h2, hw, List.length_append]
    omega

theorem initSt_ids (disk : Option (List Entry))
    (h : (load_words disk).map Entry.id = List.range' 1 (load_words disk).length) :
    IdsSt (initSt disk) := by
  refine ⟨h, ?_⟩
  show (if load_words disk = [] then 1
        else ((load_words disk).map Entry.id).foldl max 0 + 1) = _
  by_cases he : load_words disk = []
  · rw [if_pos he]
    show 1 = (load_words disk).length + 1
    rw [he]
    rfl
  · rw [if_neg he, h, foldl_max_range']
    rfl

/-- Disk contents reachable by a sequence of harvester runs (arbitrary
configurations and environments per run) starting from a missing file,
i.e. an empty collection. -/
inductive ProducedDisk : Option (List Entry) → Prop
  | start : ProducedDisk none
  | step (cfg : Config) (env : Env) (d : Option (List Entry)) :
      ProducedDisk d → ProducedDisk (main cfg env d).1

/-- C3: ids are unique and never reused across runs: each run assigns
`max(existing ids) + 1` onwards, one per accepted entry, so after any
sequence of runs from an empty collection the persisted ids are exactly
`1, …, N` in positional order — no gaps, no repeats. -/
theorem producedDisk_ids :
    ∀ d : Option (List Entry), ProducedDisk d →
      ∀ ws, d = some ws → ws.map Entry.id = List.range' 1 ws.length := by
  intro d hd
  induction hd with
  | start => intro ws h; cases h
  | step cfg env d hd ih =>
    intro ws hw
    have hload : (load_words d).map Entry.id = List.range' 1 (load_words d).length := by
      cases d with
      | none => rfl
      | some ws0 => exact ih ws0 rfl
    have hids : IdsSt (initSt d) := initSt_ids d hload
    unfold main at hw
    by_cases hc : parse_categories cfg.categoriesRaw = []
    · rw [if_pos hc] at hw
      exact ih ws hw
    · rw [if_neg hc] at hw
      have hext := runCats_extends cfg env (parse_categories cfg.categoriesRaw) (initSt d)
      revert hext hw
      rcases runCats cfg env (parse_categories cfg.categoriesRaw) (initSt d)
          with st | st | st <;> intro hw hext
      · injection hw with hw
        rw [← hw]
        exact (hext.ids hids).1
      · injection hw with hw
        rw [← hw]
        exact (hext.ids hids).1
      · exact ih ws hw

/-! ### Concrete witness runs -/

def cfgW : Config := ⟨"c", 50, "ja"⟩

/-- A small healthy upstream: one category `"c"` with one page of two
main-namespace titles; every summary succeeds with the requested title as
extract and no display title. -/
def envW : Env where
  listing := fun c => if c = "c" then [.ok [("A", some 0), ("B", some 0)]] else []
  summary := fun t => .ok ⟨200, none, none, some t, ""⟩
  today := "d"

def eA : Entry :=
  ⟨"A", "A", "", ["未分類"], 1, [], [], [], [], "CC BY-SA", "Wikipedia", "ja",
   ⟨"d", 0, 0⟩, 1⟩

def eB : Entry :=
  ⟨"B", "B", "", ["未分類"], 1, [], [], [], [], "CC BY-SA", "Wikipedia", "ja",
   ⟨"d", 0, 0⟩, 2⟩

theorem producedDisk_ids_witness :
    [eA, eB].map Entry.id = List.range' 1 2 :=
  producedDisk_ids (main cfgW envW none).1
    (ProducedDisk.step cfgW envW none ProducedDisk.start) [eA, eB] (by decide)

def cfgW9 : Config := ⟨" , ,", 50, "ja"⟩

theorem no_categories_clean_exit_witness :
    main cfgW9 envW none = (none, .noCategories) ∧
    exit_code (main cfgW9 envW none).2 = 0 :=
  no_categories_clean_exit cfgW9 envW none (by decide)

def cfgW5 : Config := ⟨"z", 50, "ja"⟩

/-- An upstream whose very first category-listing fetch fails fatally. -/
def envW5 : Env where
  listing := fun _ => [.error ()]
  summary := fun t => .ok ⟨200, none, none, some t, ""⟩
  today := "d"

theorem fatal_abort_preserves_disk_witness :
    (main cfgW5 envW5 (some [eA])).2 = .fatalErr ∧
    (main cfgW5 envW5 (some [eA])).1 = some [eA] :=
  ⟨by decide, fatal_abort_preserves_disk cfgW5 envW5 (some [eA]) (by decide)⟩


/-! ### Slug deduplication (lines 120, 134-136, 144)

The dedup key recorded during a run (line 144) is the slug of the
*requested* category-member title, while the entry stores the summary's
*display* title as `term` (line 97) and the next run rebuilds the dedup
set from the slugs of the stored terms (line 120).  The no-duplicate-slug
invariant on the persisted collection therefore holds exactly when the two
slugs agree for every accepted summary. -/

/-- Dedup invariant on a loop state: stored term slugs are pairwise
distinct, and each of them is in the dedup set. -/
def SlugInv (st : St) : Prop :=
  (st.words.map (fun w => slugify w.term)).Nodup ∧
  ∀ w ∈ st.words, slugify w.term ∈ st.haveSlugs

/-- Environments under which the dedup scheme is sound: every accepted
summary's display title (the stored `term`) has the same normalized slug
as the requested title — e.g. whenever the summary carries no display
title, or the display title equals the requested title. -/
def SlugAgrees (cfg : Config) (env : Env) : Prop :=
  ∀ t r e, env.summary t = .ok r →
    summary_to_entry t cfg.lang env.today r = some e →
    slugify e.term = slugify t

theorem runTitles_sluginv (cfg : Config) (env : Env) (hag : SlugAgrees cfg env) :
    ∀ (ts : List String) (st : St), SlugInv st →
      SlugInv (runTitles cfg env ts st).state
  | [], st, h => h
  | t :: ts, st, h => by
    rw [runTitles]
    split
    · exact h
    split
    · exact runTitles_sluginv cfg env hag ts st h
    rename_i hlim hnin
    rcases hs : env.summary t with u | r
    · have hfs : fetch_summary env t cfg.lang = .error u := by
        unfold fetch_summary
        rw [hs]
      rw [hfs]
      exact h
    have hfs : fetch_summary env t cfg.lang
        = .ok (summary_to_entry t cfg.lang env.today r) := by
      unfold fetch_summary
      rw [hs]
    rw [hfs]
    rcases he : summary_to_entry t cfg.lang env.today r with _ | e
    · exact runTitles_sluginv cfg env hag ts st h
    have hterm : slugify e.term = slugify t := hag t r e hs he
    obtain ⟨hnd, hmem⟩ := h
    have hpush : SlugInv
        { words := st.words ++ [{ e with id := st.next_id }]
          haveSlugs := st.haveSlugs ++ [slugify t]
          next_id := st.next_id + 1
          added := st.added + 1 } := by
      constructor
      · rw [List.map_append]
        simp only [List.map_cons, List.map_nil]
        refine List.Nodup.append hnd (List.nodup_singleton _) ?_
        intro a ha hb
        have ha' : a ∈ st.haveSlugs := by
          obtain ⟨w, hwmem, hwa⟩ := List.mem_map.mp ha
          exact hwa ▸ hmem w hwmem
        have hb' : a = slugify t := by
          simpa [hterm] using hb
        exact hnin (hb' ▸ ha')
      · intro w hw
        rcases List.mem_append.mp hw with hw | hw
        · exact List.mem_append_left _ (hmem w hw)
        · have : w = { e with id := st.next_id } := by simpa using hw
          subst this
          refine List.mem_append_right _ ?_
          simpa using hterm
    exact runTitles_sluginv cfg env hag ts _ hpush

theorem runPages_sluginv (cfg : Config) (env : Env) (hag : SlugAgrees cfg env) :
    ∀ (ps : List (Except Unit (List (String × Option Int)))) (st : St),
      SlugInv st → SlugInv (runPages cfg env ps st).state
  | [], st, h => h
  | p :: ps, st, h => by
    cases p with
    | error e => exact h
    | ok members =>
      have h1 := runTitles_sluginv cfg env hag (page_titles members) st h
      rcases hrt : runTitles cfg env (page_titles members) st with st' | st' | st' <;>
          rw [hrt] at h1 <;> simp only [runPages, hrt]
      · exact runPages_sluginv cfg env hag ps st' h1
      · exact h1
      · exact h1

theorem runCats_sluginv (cfg : Config) (env : Env) (hag : SlugAgrees cfg env) :
    ∀ (cs : List String) (st : St), SlugInv st →
      SlugInv (runCats cfg env cs st).state
  | [], st, h => h
  | c :: cs, st, h => by
    have h1 := runPages_sluginv cfg env hag (env.listing c) st h
    rcases hrp : runPages cfg env (env.listing c) st with st' | st' | st' <;>
        rw [hrp] at h1 <;> simp only [runCats, hrp]
    · exact runCats_sluginv cfg env hag cs st' h1
    · exact h1
    · exact h1

/-- Disk contents reachable by harvester runs from an empty collection
when every run's environment satisfies `SlugAgrees`. -/
inductive GoodProduced : Option (List Entry) → Prop
  | start : GoodProduced none
  | step (cfg : Config) (env : Env) (d : Option (List Entry)) :
      SlugAgrees cfg env → GoodProduced d → GoodProduced (main cfg env d).1

/-- C1 (amended): in every collection persisted by harvester runs from an
empty collection, no two entries share the same normalized slug of `term`
— in particular re-running with the same category and unchanged upstream
adds no duplicate slug — *provided* each accepted summary's display title
has the same normalized slug as the requested title (`SlugAgrees`; the
unconditional statement fails, see the recorded counterexample). -/
theorem goodProduced_slug_nodup :
    ∀ d : Option (List Entry), GoodProduced d →
      ∀ ws, d = some ws → (ws.map (fun w => slugify w.term)).Nodup := by
  intro d hd
  induction hd with
  | start => intro ws h; cases h
  | step cfg env d hag hd ih =>
    intro ws hw
    have hload : ((load_words d).map (fun w => slugify w.term)).Nodup := by
      cases d with
      | none => exact List.nodup_nil
      | some ws0 => exact ih ws0 rfl
    have hinv : SlugInv (initSt d) := by
      refine ⟨hload, ?_⟩
      intro w hwmem
      exact List.mem_map.mpr ⟨w, hwmem, rfl⟩
    unfold main at hw
    by_cases hc : parse_categories cfg.categoriesRaw = []
    · rw [if_pos hc] at hw
      exact ih ws hw
    · rw [if_neg hc] at hw
      have hrun := runCats_sluginv cfg env hag (parse_categories cfg.categoriesRaw)
        (initSt d) hinv
      revert hrun hw
      rcases runCats cfg env (parse_categories cfg.categoriesRaw) (initSt d)
          with st | st | st <;> intro hw hrun
      · injection hw with hw
        rw [← hw]
        exact hrun.1
      · injection hw with hw
        rw [← hw]
        exact hrun.1
      · exact ih ws hw

theorem envW_slugAgrees : SlugAgrees cfgW envW := by
  intro t r e hs he
  have hr : r = ⟨200, none, none, some t, ""⟩ := by
    injection hs with h2
    exact h2.symm
  subst hr
  simp only [summary_to_entry, Option.getD_some] at he
  by_cases h3 : pyStrip t = ""
  · rw [if_pos h3] at he
    cases he
  rw [if_neg h3] at he
  by_cases h4 : (bad_words.any fun w => strContains (pyStrip t) w) = true
  · rw [if_pos h4] at he
    cases he
  rw [if_neg h4] at he
  injection he with he
  rw [← he]

theorem goodProduced_slug_nodup_witness :
    ([eA, eB].map (fun w => slugify w.term)).Nodup :=
  goodProduced_slug_nodup (main cfgW envW none).1
    (GoodProduced.step cfgW envW none envW_slugAgrees GoodProduced.start)
    [eA, eB] (by decide)

/-- An upstream where every summary carries the display title `"B"`
regardless of the requested title. -/
def envX : Env where
  listing := fun c => if c = "c" then [.ok [("A", some 0), ("B", some 0)]] else []
  summary := fun _ => .ok ⟨200, none, some "B", some "x", ""⟩
  today := "d"

def eX1 : Entry :=
  ⟨"B", "x", "", ["未分類"], 1, [], [], [], [], "CC BY-SA", "Wikipedia", "ja",
   ⟨"d", 0, 0⟩, 1⟩

def eX2 : Entry :=
  ⟨"B", "x", "", ["未分類"], 1, [], [], [], [], "CC BY-SA", "Wikipedia", "ja",
   ⟨"d", 0, 0⟩, 2⟩

/-- C1 counterexample: a single harvester run on an empty collection can
persist two entries with the same normalized slug of `term`: the run-time
dedup key (line 134) is the slug of the requested title (`"A"`, `"B"`),
but both stored terms are the summary's display title `"B"` (line 97), so
the persisted slugs are `["b", "b"]`. -/
theorem slug_dedup_counterexample :
    ProducedDisk (main cfgW envX none).1 ∧
    (main cfgW envX none).1 = some [eX1, eX2] ∧
    ¬ ([eX1, eX2].map (fun w => slugify w.term)).Nodup :=
  ⟨ProducedDisk.step cfgW envX none ProducedDisk.start, by decide, by decide⟩

end harvest

/-! ## Persistence: `save_words` / `load_words` serialization (lines 37-45)

`save_words` writes the collection with `json.dump` (UTF-8, `ensure_ascii
= False`, two-space indent) and `load_words` reads it back with
`json.load`.  For the value shapes this program persists — finite trees of
objects with string keys, strings and integers — the Python dump/parse
pair is the identity on the JSON tree, so the pair is modelled at the tree
level: `save_words` maps the in-memory collection to its JSON tree (object
keys in Python dict insertion order, the `id` key added last by line 142)
and `load_saved_words` recovers the entry list from a tree. -/

inductive Json where
  | str (s : String)
  | int (n : Int)
  | arr (xs : List Json)
  | obj (fields : List (String × Json))

def Srs.toJson (s : Srs) : Json :=
  .obj [("next_review", .str s.next_review),
        ("interval_days", .int s.interval_days),
        ("stability", .int s.stability)]

def Link.toJson (l : Link) : Json :=
  .obj [("title", .str l.title), ("url", .str l.url)]

def Entry.toJson (e : Entry) : Json :=
  .obj [("term", .str e.term),
        ("definition_ja", .str e.definition_ja),
        ("definition_en", .str e.definition_en),
        ("tags", .arr (e.tags.map Json.str)),
        ("difficulty", .int e.difficulty),
        ("related_terms", .arr (e.related_terms.map Json.str)),
        ("examples", .arr (e.examples.map Json.str)),
        ("official_links", .arr (e.official_links.map Link.toJson)),
        ("source_urls", .arr (e.source_urls.map Json.str)),
        ("license", .str e.license),
        ("attribution", .str e.attribution),
        ("lang", .str e.lang),
        ("srs", e.srs.toJson),
        ("id", .int e.id)]

/-- `save_words` (lines 43-45): the JSON tree handed to `json.dump`. -/
def save_words (ws : List Entry) : Json := .arr (ws.map Entry.toJson)

/-- Python dict key access on a parsed object (first match wins; the dicts
written by this program have distinct keys). -/
def jGet : List (String × Json) → String → Option Json
  | [], _ => none
  | (k, v) :: fs, key => if k = key then some v else jGet fs key

def Json.asStr : Json → Option String
  | .str s => some s
  | _ => none

def Json.asInt : Json → Option Int
  | .int n => some n
  | _ => none

def decodeList {α : Type} (f : Json → Option α) : List Json → Option (List α)
  | [] => some []
  | x :: xs =>
    match f x, decodeList f xs with
    | some a, some as => some (a :: as)
    | _, _ => none

def getStr (fs : List (String × Json)) (k : String) : Option String :=
  (jGet fs k).bind Json.asStr

def getInt (fs : List (String × Json)) (k : String) : Option Int :=
  (jGet fs k).bind Json.asInt

def getNat (fs : List (String × Json)) (k : String) : Option Nat :=
  (jGet fs k).bind fun j => match j with
    | .int n => if 0 ≤ n then some n.toNat else none
    | _ => none

def getStrList (fs : List (String × Json)) (k : String) : Option (List String) :=
  (jGet fs k).bind fun j => match j with
    | .arr xs => decodeList Json.asStr xs
    | _ => none

def decodeLink (j : Json) : Option Link :=
  match j with
  | .obj fs =>
    match getStr fs "title", getStr fs "url" with
    | some t, some u => some ⟨t, u⟩
    | _, _ => none
  | _ => none

def getLinkList (fs : List (String × Json)) (k : String) : Option (List Link) :=
  (jGet fs k).bind fun j => match j with
    | .arr xs => decodeList decodeLink xs
    | _ => none

def decodeSrs (j : Json) : Option Srs :=
  match j with
  | .obj fs =>
    match getStr fs "next_review", getInt fs "interval_days",
          getInt fs "stability" with
    | some nr, some idays, some stab => some ⟨nr, idays, stab⟩
    | _, _, _ => none
  | _ => none

def decodeEntry (j : Json) : Option Entry :=
  match j with
  | .obj fs =>
    (getStr fs "term").bind fun term =>
    (getStr fs "definition_ja").bind fun dja =>
    (getStr fs "definition_en").bind fun den =>
    (getStrList fs "tags").bind fun tags =>
    (getInt fs "difficulty").bind fun diff =>
    (getStrList fs "related_terms").bind fun rel =>
    (getStrList fs "examples").bind fun ex =>
    (getLinkList fs "official_links").bind fun links =>
    (getStrList fs "source_urls").bind fun urls =>
    (getStr fs "license").bind fun lic =>
    (getStr fs "attribution").bind fun attr =>
    (getStr fs "lang").bind fun lng =>
    ((jGet fs "srs").bind decodeSrs).bind fun srs =>
    (getNat fs "id").bind fun i =>
    some ⟨term, dja, den, tags, diff, rel, ex, links, urls, lic, attr, lng, srs, i⟩
  | _ => none

/-- Reading back the tree written by `save_words`: the ordered list of
entries, or `none` for a tree of the wrong shape. -/
def load_saved_words (j : Json) : Option (List Entry) :=
  match j with
  | .arr xs => decodeList decodeEntry xs
  | _ => none

theorem decodeList_map {α : Type} (f : Json → Option α) (g : α → Json) :
    ∀ l : List α, (∀ a ∈ l, f (g a) = some a) →
      decodeList f (l.map g) = some l
  | [], _ => rfl
  | a :: l, h => by
    simp only [List.map_cons, decodeList]
    rw [h a (List.mem_cons_self a l),
        decodeList_map f g l (fun b hb => h b (List.mem_cons_of_mem a hb))]

theorem decodeList_str (l : List String) :
    decodeList Json.asStr (l.map Json.str) = some l :=
  decodeList_map Json.asStr Json.str l (fun _ _ => rfl)

theorem decodeLink_toJson (l : Link) : decodeLink l.toJson = some l := by
  simp [decodeLink, Link.toJson, getStr, jGet, Json.asStr]

theorem decodeList_link (l : List Link) :
    decodeList decodeLink (l.map Link.toJson) = some l :=
  decodeList_map decodeLink Link.toJson l (fun a _ => decodeLink_toJson a)

theorem decodeSrs_toJson (s : Srs) : decodeSrs s.toJson = some s := by
  simp [decodeSrs, Srs.toJson, getStr, getInt, jGet, Json.asStr, Json.asInt]

theorem decodeEntry_toJson (e : Entry) : decodeEntry e.toJson = some e := by
  simp [decodeEntry, Entry.toJson, getStr, getInt, getNat, getStrList,
        getLinkList, jGet, Json.asStr, Json.asInt, decodeSrs_toJson,
        decodeList_str, decodeList_link, Int.toNat_natCast]

/-- C7: saving any collection of entries and loading it back yields the
identical ordered sequence of entries — every field of every entry is
recovered and the order is preserved. -/
theorem save_load_roundtrip (ws : List Entry) :
    load_saved_words (save_words ws) = some ws := by
  simp only [save_words, load_saved_words]
  exact decodeList_map decodeEntry Entry.toJson ws (fun e _ => decodeEntry_toJson e)

namespace harvest

/-! ### Limit enforcement (lines 124-152, claim about `LIMIT`)

"The upstream offers more than `k` eligible titles" is made precise by an
unlimited reference run: the same traversal, deduplication and filtering
as `main`'s loops, but with no limit check, collecting every entry the
upstream offers.  The limited run is then compared against it. -/

/-- The unlimited reference run over one page's titles: `runTitles`
without the limit check of line 129 and with transport failures skipped
(it is only used for environments satisfying `NoFatalEnv`). -/
def specTitles (cfg : Config) (env : Env) : List String → St → St
  | [], st => st
  | t :: ts, st =>
    if slugify t ∈ st.haveSlugs then specTitles cfg env ts st
    else match fetch_summary env t cfg.lang with
      | .error _ => specTitles cfg env ts st
      | .ok none => specTitles cfg env ts st
      | .ok (some e) =>
        specTitles cfg env ts
          { words := st.words ++ [{ e with id := st.next_id }]
            haveSlugs := st.haveSlugs ++ [slugify t]
            next_id := st.next_id + 1
            added := st.added + 1 }

/-- The unlimited reference run over a category's pages. -/
def specPages (cfg : Config) (env : Env) :
    List (Except Unit (List (String × Option Int))) → St → St
  | [], st => st
  | p :: ps, st =>
    match p with
    | .error _ => specPages cfg env ps st
    | .ok members =>
      specPages cfg env ps (specTitles cfg env (page_titles members) st)

/-- The unlimited reference run over the category list. -/
def specCats (cfg : Config) (env : Env) : List String → St → St
  | [], st => st
  | c :: cs, st => specCats cfg env cs (specPages cfg env (env.listing c) st)

/-- No transport call of the environment ever fails fatally. -/
def NoFatalEnv (env : Env) : Prop :=
  (∀ c p, p ∈ env.listing c → ∃ members, p = .ok members) ∧
  (∀ t, ∃ r, env.summary t = .ok r)

theorem specTitles_extends (cfg : Config) (env : Env) :
    ∀ (ts : List String) (st : St), ∃ ex,
      (specTitles cfg env ts st).words = st.words ++ ex ∧
      (specTitles cfg env ts st).added = st.added + ex.length
  | [], st => ⟨[], by simp [specTitles]⟩
  | t :: ts, st => by
    rw [specTitles]
    by_cases hdup : slugify t ∈ st.haveSlugs
    · rw [if_pos hdup]
      exact specTitles_extends cfg env ts st
    rw [if_neg hdup]
    rcases fetch_summary env t cfg.lang with u | oe
    · exact specTitles_extends cfg env ts st
    rcases oe with _ | e
    · exact specTitles_extends cfg env ts st
    obtain ⟨ex, hw, ha⟩ := specTitles_extends cfg env ts
      { words := st.words ++ [{ e with id := st.next_id }]
        haveSlugs := st.haveSlugs ++ [slugify t]
        next_id := st.next_id + 1
        added := st.added + 1 }
    refine ⟨{ e with id := st.next_id } :: ex, ?_, ?_⟩
    · rw [hw]
      simp
    · rw [ha]
      simp only [List.length_cons]
      omega

theorem specPages_extends (cfg : Config) (env : Env) :
    ∀ (ps : List (Except Unit (List (String × Option Int)))) (st : St), ∃ ex,
      (specPages cfg env ps st).words = st.words ++ ex ∧
      (specPages cfg env ps st).added = st.added + ex.length
  | [], st => ⟨[], by simp [specPages]⟩
  | p :: ps, st => by
    cases p with
    | error u =>
      show ∃ ex, (specPages cfg env ps st).words = _ ∧ _
      exact specPages_extends cfg env ps st
    | ok members =>
      obtain ⟨ex1, hw1, ha1⟩ := specTitles_extends cfg env (page_titles members) st
      obtain ⟨ex2, hw2, ha2⟩ :=
        specPages_extends cfg env ps (specTitles cfg env (page_titles members) st)
      refine ⟨ex1 ++ ex2, ?_, ?_⟩
      · show (specPages cfg env ps (specTitles cfg env (page_titles members) st)).words = _
        rw [hw2, hw1, List.append_assoc]
      · show (specPages cfg env ps (specTitles cfg env (page_titles members) st)).added = _
        rw [ha2, ha1, List.length_append]
        omega

theorem specCats_extends (cfg : Config) (env : Env) :
    ∀ (cs : List String) (st : St), ∃ ex,
      (specCats cfg env cs st).words = st.words ++ ex ∧
      (specCats cfg env cs st).added = st.added + ex.length
  | [], st => ⟨[], by simp [specCats]⟩
  | c :: cs, st => by
    obtain ⟨ex1, hw1, ha1⟩ := specPages_extends cfg env (env.listing c) st
    obtain ⟨ex2, hw2, ha2⟩ :=
      specCats_extends cfg env cs (specPages cfg env (env.listing c) st)
    refine ⟨ex1 ++ ex2, ?_, ?_⟩
    · show (specCats cfg env cs (specPages cfg env (env.listing c) st)).words = _
      rw [hw2, hw1, List.append_assoc]
    · show (specCats cfg env cs (specPages cfg env (env.listing c) st)).added = _
      rw [ha2, ha1, List.length_append]
      omega

theorem runTitles_bound (cfg : Config) (env : Env) :
    ∀ (ts : List String) (st : St), st.added ≤ cfg.limit →
      (∀ st', runTitles cfg env ts st = .go st' → st'.added ≤ cfg.limit) ∧
      (∀ st', runTitles cfg env ts st = .stop st' → st'.added = cfg.limit)
  | [], st, h => by
    constructor
    · intro st' hgo
      cases hgo
      exact h
    · intro st' hstop
      cases hstop
  | t :: ts, st, h => by
    rw [runTitles]
    by_cases hlim : st.added ≥ cfg.limit
    · rw [if_pos hlim]
      constructor
      · intro st' hgo
        cases hgo
      · intro st' hstop
        cases hstop
        omega
    rw [if_neg hlim]
    by_cases hdup : slugify t ∈ st.haveSlugs
    · rw [if_pos hdup]
      exact runTitles_bound cfg env ts st h
    rw [if_neg hdup]
    rcases fetch_summary env t cfg.lang with u | oe
    · constructor
      · intro st' hgo
        cases hgo
      · intro st' hstop
        cases hstop
    rcases oe with _ | e
    · exact runTitles_bound cfg env ts st h
    · exact runTitles_bound cfg env ts _ (show st.added + 1 ≤ cfg.limit by omega)

theorem runPages_bound (cfg : Config) (env : Env) :
    ∀ (ps : List (Except Unit (List (String × Option Int)))) (st : St),
      st.added ≤ cfg.limit →
      (∀ st', runPages cfg env ps st = .go st' → st'.added ≤ cfg.limit) ∧
      (∀ st', runPages cfg env ps st = .stop st' → st'.added = cfg.limit)
  | [], st, h => by
    constructor
    · intro st' hgo
      cases hgo
      exact h
    · intro st' hstop
      cases hstop
  | p :: ps, st, h => by
    cases p with
    | error u =>
      constructor
      · intro st' hgo
        cases hgo
      · intro st' hstop
        cases hstop
    | ok members =>
      rcases hrt : runTitles cfg env (page_titles members) st with st1 | st1 | st1 <;>
          simp only [runPages, hrt]
      · have h1 := (runTitles_bound cfg env (page_titles members) st h).1 st1 hrt
        exact runPages_bound cfg env ps st1 h1
      · have h1 := (runTitles_bound cfg env (page_titles members) st h).2 st1 hrt
        constructor
        · intro st' hgo
          cases hgo
        · intro st' hstop
          cases hstop
          exact h1
      · constructor
        · intro st' hgo
          cases hgo
        · intro st' hstop
          cases hstop

theorem runCats_bound (cfg : Config) (env : Env) :
    ∀ (cs : List String) (st : St), st.added ≤ cfg.limit →
      (∀ st', runCats cfg env cs st = .go st' → st'.added ≤ cfg.limit) ∧
      (∀ st', runCats cfg env cs st = .stop st' → st'.added = cfg.limit)
  | [], st, h => by
    constructor
    · intro st' hgo
      cases hgo
      exact h
    · intro st' hstop
      cases hstop
  | c :: cs, st, h => by
    rcases hrp : runPages cfg env (env.listing c) st with st1 | st1 | st1 <;>
        simp only [runCats, hrp]
    · have h1 := (runPages_bound cfg env (env.listing c) st h).1 st1 hrp
      exact runCats_bound cfg env cs st1 h1
    · have h1 := (runPages_bound cfg env (env.listing c) st h).2 st1 hrp
      constructor
      · intro st' hgo
        cases hgo
      · intro st' hstop
        cases hstop
        exact h1
    · constructor
      · intro st' hgo
        cases hgo
      · intro st' hstop
        cases hstop


theorem runTitles_nofatal (cfg : Config) (env : Env)
    (hs : ∀ t, ∃ r, env.summary t = .ok r) :
    ∀ (ts : List String) (st st' : St), runTitles cfg env ts st ≠ .fatal st'
  | [], st, st' => by
    intro h
    cases h
  | t :: ts, st, st' => by
    rw [runTitles]
    by_cases hlim : st.added ≥ cfg.limit
    · rw [if_pos hlim]
      intro h
      cases h
    rw [if_neg hlim]
    by_cases hdup : slugify t ∈ st.haveSlugs
    · simp only [if_pos hdup]
      exact runTitles_nofatal cfg env hs ts st st'
    simp only [if_neg hdup]
    obtain ⟨r, hr⟩ := hs t
    have hfs : fetch_summary env t cfg.lang
        = .ok (summary_to_entry t cfg.lang env.today r) := by
      unfold fetch_summary
      rw [hr]
    rw [hfs]
    rcases summary_to_entry t cfg.lang env.today r with _ | e
    · exact runTitles_nofatal cfg env hs ts st st'
    · exact runTitles_nofatal cfg env hs ts _ st'

theorem runPages_nofatal (cfg : Config) (env : Env)
    (hs : ∀ t, ∃ r, env.summary t = .ok r) :
    ∀ (ps : List (Except Unit (List (String × Option Int)))) (st st' : St),
      (∀ p ∈ ps, ∃ members, p = .ok members) →
      runPages cfg env ps st ≠ .fatal st'
  | [], st, st', _ => by
    intro h
    cases h
  | p :: ps, st, st', hp => by
    obtain ⟨members, hm⟩ := hp p (List.mem_cons_self p ps)
    subst hm
    rcases hrt : runTitles cfg env (page_titles members) st with st1 | st1 | st1 <;>
        simp only [runPages, hrt]
    · exact runPages_nofatal cfg env hs ps st1 st'
        (fun q hq => hp q (List.mem_cons_of_mem _ hq))
    · intro h
      cases h
    · exact absurd hrt (runTitles_nofatal cfg env hs (page_titles members) st st1)

theorem runCats_nofatal (cfg : Config) (env : Env) (hnf : NoFatalEnv env) :
    ∀ (cs : List String) (st st' : St), runCats cfg env cs st ≠ .fatal st'
  | [], st, st' => by
    intro h
    cases h
  | c :: cs, st, st' => by
    rcases hrp : runPages cfg env (env.listing c) st with st1 | st1 | st1 <;>
        simp only [runCats, hrp]
    · exact runCats_nofatal cfg env hnf cs st1 st'
    · intro h
      cases h
    · exact absurd hrp
        (runPages_nofatal cfg env hnf.2 (env.listing c) st st1 (hnf.1 c))

theorem runTitles_go_spec (cfg : Config) (env : Env) :
    ∀ (ts : List String) (st st' : St), runTitles cfg env ts st = .go st' →
      specTitles cfg env ts st = st'
  | [], st, st' => by
    intro h
    cases h
    rfl
  | t :: ts, st, st' => by
    rw [runTitles, specTitles]
    by_cases hlim : st.added ≥ cfg.limit
    · rw [if_pos hlim]
      intro h
      cases h
    rw [if_neg hlim]
    by_cases hdup : slugify t ∈ st.haveSlugs
    · simp only [if_pos hdup]
      exact runTitles_go_spec cfg env ts st st'
    simp only [if_neg hdup]
    rcases fetch_summary env t cfg.lang with u | oe
    · intro h
      cases h
    rcases oe with _ | e
    · exact runTitles_go_spec cfg env ts st st'
    · exact runTitles_go_spec cfg env ts _ st'

theorem runPages_go_spec (cfg : Config) (env : Env) :
    ∀ (ps : List (Except Unit (List (String × Option Int)))) (st st' : St),
      runPages cfg env ps st = .go st' → specPages cfg env ps st = st'
  | [], st, st' => by
    intro h
    cases h
    rfl
  | p :: ps, st, st' => by
    cases p with
    | error u =>
      intro h
      cases h
    | ok members =>
      rcases hrt : runTitles cfg env (page_titles members) st with st1 | st1 | st1 <;>
          simp only [runPages, hrt, specPages]
      · have h1 := runTitles_go_spec cfg env (page_titles members) st st1 hrt
        rw [h1]
        exact runPages_go_spec cfg env ps st1 st'
      · intro h
        cases h
      · intro h
        cases h

theorem runCats_go_spec (cfg : Config) (env : Env) :
    ∀ (cs : List String) (st st' : St),
      runCats cfg env cs st = .go st' → specCats cfg env cs st = st'
  | [], st, st' => by
    intro h
    cases h
    rfl
  | c :: cs, st, st' => by
    rcases hrp : runPages cfg env (env.listing c) st with st1 | st1 | st1 <;>
        simp only [runCats, hrp, specCats]
    · have h1 := runPages_go_spec cfg env (env.listing c) st st1 hrp
      rw [h1]
      exact runCats_go_spec cfg env cs st1 st'
    · intro h
      cases h
    · intro h
      cases h

theorem runTitles_stop_words_le (cfg : Config) (env : Env) :
    ∀ (ts : List String) (st st' : St), runTitles cfg env ts st = .stop st' →
      ∃ ex, (specTitles cfg env ts st).words = st'.words ++ ex
  | [], st, st' => by
    intro h
    cases h
  | t :: ts, st, st' => by
    rw [runTitles]
    by_cases hlim : st.added ≥ cfg.limit
    · rw [if_pos hlim]
      intro h
      cases h
      exact (specTitles_extends cfg env (t :: ts) st).imp fun ex hex => hex.1
    rw [if_neg hlim]
    rw [specTitles]
    by_cases hdup : slugify t ∈ st.haveSlugs
    · simp only [if_pos hdup]
      exact runTitles_stop_words_le cfg env ts st st'
    simp only [if_neg hdup]
    rcases fetch_summary env t cfg.lang with u | oe
    · intro h
      cases h
    rcases oe with _ | e
    · exact runTitles_stop_words_le cfg env ts st st'
    · exact runTitles_stop_words_le cfg env ts _ st'

theorem runPages_stop_words_le (cfg : Config) (env : Env) :
    ∀ (ps : List (Except Unit (List (String × Option Int)))) (st st' : St),
      runPages cfg env ps st = .stop st' →
      ∃ ex, (specPages cfg env ps st).words = st'.words ++ ex
  | [], st, st' => by
    intro h
    cases h
  | p :: ps, st, st' => by
    cases p with
    | error u =>
      intro h
      cases h
    | ok members =>
      rcases hrt : runTitles cfg env (page_titles members) st with st1 | st1 | st1 <;>
          simp only [runPages, hrt, specPages]
      · have h1 := runTitles_go_spec cfg env (page_titles members) st st1 hrt
        rw [h1]
        exact runPages_stop_words_le cfg env ps st1 st'
      · intro h
        cases h
        obtain ⟨ex1, hex1⟩ :=
          runTitles_stop_words_le cfg env (page_titles members) st st' hrt
        obtain ⟨ex2, hw2, -⟩ :=
          specPages_extends cfg env ps (specTitles cfg env (page_titles members) st)
        exact ⟨ex1 ++ ex2, by rw [hw2, hex1, List.append_assoc]⟩
      · intro h
        cases h

theorem runCats_stop_words_le (cfg : Config) (env : Env) :
    ∀ (cs : List String) (st st' : St), runCats cfg env cs st = .stop st' →
      ∃ ex, (specCats cfg env cs st).words = st'.words ++ ex
  | [], st, st' => by
    intro h
    cases h
  | c :: cs, st, st' => by
    rcases hrp : runPages cfg env (env.listing c) st with st1 | st1 | st1 <;>
        simp only [runCats, hrp, specCats]
    · have h1 := runPages_go_spec cfg env (env.listing c) st st1 hrp
      rw [h1]
      exact runCats_stop_words_le cfg env cs st1 st'
    · intro h
      cases h
      obtain ⟨ex1, hex1⟩ := runPages_stop_words_le cfg env (env.listing c) st st' hrp
      obtain ⟨ex2, hw2, -⟩ :=
        specCats_extends cfg env cs (specPages cfg env (env.listing c) st)
      exact ⟨ex1 ++ ex2, by rw [hw2, hex1, List.append_assoc]⟩
    · intro h
      cases h

/-- C2: for every non-negative limit `k` (here `cfg.limit`), if the
upstream — with no transport failures — offers more than `k` eligible
titles (the unlimited reference run `specCats` accepts more than `k` new
entries), then the run adds exactly `k` new entries (the first `k`
accepted by the unlimited run, in encounter order), immediately persists
the full in-memory collection, and terminates the entire run
(`limitReached`: all remaining titles, pages and categories are abandoned)
before exhausting the category list — a hard stop, not a per-category
stop. -/
theorem limit_enforcement (cfg : Config) (env : Env) (disk : Option (List Entry))
    (hnf : NoFatalEnv env)
    (hover : cfg.limit <
      (specCats cfg env (parse_categories cfg.categoriesRaw) (initSt disk)).added) :
    ∃ new,
      (specCats cfg env (parse_categories cfg.categoriesRaw) (initSt disk)).words
        = load_words disk ++ new ∧
      cfg.limit ≤ new.length ∧
      main cfg env disk
        = (some (load_words disk ++ new.take cfg.limit),
           .limitReached cfg.limit) := by
  have h0 : (initSt disk).added = 0 := rfl
  obtain ⟨specNew, hspecw, hspeca⟩ :=
    specCats_extends cfg env (parse_categories cfg.categoriesRaw) (initSt disk)
  have hsnlen : cfg.limit < specNew.length := by
    rw [hspeca, h0] at hover
    omega
  have hcats : parse_categories cfg.categoriesRaw ≠ [] := by
    intro hc
    rw [hc] at hover
    have : (specCats cfg env [] (initSt disk)).added = 0 := h0
    omega
  refine ⟨specNew, hspecw, by omega, ?_⟩
  unfold main
  rw [if_neg (by simpa using hcats)]
  have hext := runCats_extends cfg env (parse_categories cfg.categoriesRaw) (initSt disk)
  have hb := runCats_bound cfg env (parse_categories cfg.categoriesRaw) (initSt disk)
    (by rw [h0]; omega)
  rcases hr : runCats cfg env (parse_categories cfg.categoriesRaw) (initSt disk)
      with st | st | st <;> rw [hr] at hext <;> simp only [hr]
  · -- normal completion is impossible: the unlimited run accepts too much
    have hgo := hb.1 st hr
    have hspec := runCats_go_spec cfg env (parse_categories cfg.categoriesRaw)
      (initSt disk) st hr
    rw [hspec] at hspeca
    omega
  · -- the limit-triggered stop
    have hadded : st.added = cfg.limit := hb.2 st hr
    obtain ⟨new, hw, ha, -, -⟩ := hext
    simp only [Flow.state] at hw ha
    obtain ⟨sx, hsx⟩ := runCats_stop_words_le cfg env (parse_categories cfg.categoriesRaw)
      (initSt disk) st hr
    have hnewlen : new.length = cfg.limit := by
      rw [h0] at ha
      omega
    have hsn : specNew = new ++ sx := by
      have hcat : (initSt disk).words ++ specNew = (initSt disk).words ++ (new ++ sx) := by
        rw [← List.append_assoc, ← hw, ← hsx, hspecw]
      exact List.append_cancel_left hcat
    have htake : specNew.take cfg.limit = new := by
      rw [hsn]
      exact List.take_left' hnewlen
    show (some st.words, MainResult.limitReached st.added) = _
    rw [htake, hadded, hw]
    rfl
  · exact absurd hr (runCats_nofatal cfg env hnf (parse_categories cfg.categoriesRaw)
      (initSt disk) st)

theorem envW_nofatal : NoFatalEnv envW := by
  constructor
  · intro c p hp
    by_cases hc : c = "c"
    · have hl : envW.listing c = [Except.ok [("A", (some 0 : Option Int)), ("B", some 0)]] := by
        simp [envW, hc]
      rw [hl, List.mem_singleton] at hp
      exact ⟨_, hp⟩
    · have hl : envW.listing c = [] := by
        simp [envW, hc]
      rw [hl] at hp
      cases hp
  · intro t
    exact ⟨_, rfl⟩

def cfgW2 : Config := ⟨"c", 1, "ja"⟩

theorem limit_enforcement_witness :
    main cfgW2 envW none = (some [eA], .limitReached 1) := by
  obtain ⟨new, hspec, -, hmain⟩ :=
    limit_enforcement cfgW2 envW none envW_nofatal (by decide)
  have hs2 : (specCats cfgW2 envW (parse_categories cfgW2.categoriesRaw)
      (initSt none)).words = [eA, eB] := by decide
  rw [hs2] at hspec
  have hnew : new = [eA, eB] := by simpa [load_words] using hspec.symm
  rw [hmain, hnew]
  rfl

end harvest
